import Mathlib

/-!
Verification development for the immense rule-evaluation and mesh-export
library.  The repository ships `src/lib.rs`, whose `write_meshes` drives the
streaming OBJ export; the submodules `api`, `mesh` and `export` (Transform,
Mesh, Rule, the evaluator and `render_obj`) are declared there but their
bodies are not part of the sources, so those components are modelled from
the specification.  Coordinates are embedded as rationals.
-/

/-- Modelled from the spec: a 3D point (the mesh module is absent from the
sources).  Components are rationals standing for the finite reals of the
contract. -/
structure V3 where
  x : ℚ
  y : ℚ
  z : ℚ
deriving DecidableEq, Repr

/-- Modelled from the spec: an affine transform built from translations and
(per-axis) scalings and their compositions, represented by a diagonal linear
part and a translation part; this family is closed under composition. -/
structure Transform where
  sx : ℚ
  sy : ℚ
  sz : ℚ
  tx : ℚ
  ty : ℚ
  tz : ℚ
deriving DecidableEq, Repr

def Transform.apply (t : Transform) (p : V3) : V3 :=
  ⟨t.sx * p.x + t.tx, t.sy * p.y + t.ty, t.sz * p.z + t.tz⟩

/-- Modelled from the spec: `compose(outer, inner)` applied to a point equals
applying `inner` then `outer`. -/
def Transform.compose (a b : Transform) : Transform :=
  ⟨a.sx * b.sx, a.sy * b.sy, a.sz * b.sz,
   a.sx * b.tx + a.tx, a.sy * b.ty + a.ty, a.sz * b.tz + a.tz⟩

def Transform.identity : Transform := ⟨1, 1, 1, 0, 0, 0⟩

/-- `step` composed with itself `i` times; `pow t 0` is the identity. -/
def Transform.pow (t : Transform) : Nat → Transform
  | 0 => Transform.identity
  | n + 1 => Transform.compose t (Transform.pow t n)

def Translate.x (v : ℚ) : Transform := ⟨1, 1, 1, v, 0, 0⟩

def Translate.y (v : ℚ) : Transform := ⟨1, 1, 1, 0, v, 0⟩

def Translate.z (v : ℚ) : Transform := ⟨1, 1, 1, 0, 0, v⟩

def Translate.xyz (a b c : ℚ) : Transform := ⟨1, 1, 1, a, b, c⟩

def Scale.uniform (f : ℚ) : Transform := ⟨f, f, f, 0, 0, 0⟩

/-- Modelled from the spec: a mesh is an ordered vertex list plus an ordered
face list, each face a list of local vertex indices. -/
structure Mesh where
  vertices : List V3
  faces : List (List Nat)
deriving DecidableEq, Repr

/-- Modelled from the spec: transforming a mesh maps every vertex through the
transform and leaves the face list untouched. -/
def Mesh.applyT (t : Transform) (m : Mesh) : Mesh :=
  ⟨m.vertices.map t.apply, m.faces⟩

/-- Modelled from the spec: the rule tree (api module absent from the
sources).  A node is a mesh-producing leaf, an ordered list of
(child, attached transform) pairs, or a deferred node.  The ToRule
capability of a deferred node is embedded as a function from the current
resolution counter (the evaluation-time randomness state) to a rule, so
that fresh resolution per occurrence is observable. -/
inductive Rule where
  | leaf (m : Mesh)
  | children (cs : List (Rule × Transform))
  | deferred (f : Nat → Rule)

/-- Attaching a transform wraps the rule as a single transformed child. -/
def Rule.tf (r : Rule) (t : Transform) : Rule :=
  Rule.children [(r, t)]

/-- Modelled from the spec: `Replicate::n(count, step)` produces `count`
children, the i-th carrying `step` composed with itself `i` times, each
wrapping the same sub-rule. -/
def Replicate.n (count : Nat) (step : Transform) (r : Rule) : Rule :=
  Rule.children ((List.range count).map fun i => (r, Transform.pow step i))

mutual

/-- Modelled from the spec: the evaluator.  `fuel` bounds deferred
resolutions (the engine itself has no termination guard; an unbounded
deferred chain exhausts the fuel and yields `none`).  The `Nat` state is the
resolution counter threaded left to right; each deferred node is resolved
exactly once per occurrence, at the current counter, which is then
incremented. -/
def evaluate : Nat → Rule → Transform → Nat → Option (List Mesh × Nat)
  | _, Rule.leaf m, t, c => some ([Mesh.applyT t m], c)
  | fuel, Rule.children cs, t, c => evalChildren fuel cs t c
  | 0, Rule.deferred _, _, _ => none
  | fuel + 1, Rule.deferred f, t, c => evaluate fuel (f c) t (c + 1)
termination_by fuel r _ _ => (fuel, sizeOf r)
decreasing_by all_goals (simp_wf; omega)

/-- Children are evaluated in insertion order, each under the composition of
the inherited transform with its attached transform, results concatenated. -/
def evalChildren : Nat → List (Rule × Transform) → Transform → Nat →
    Option (List Mesh × Nat)
  | _, [], _, c => some ([], c)
  | fuel, (r, rt) :: rest, t, c =>
    match evaluate fuel r (Transform.compose t rt) c with
    | none => none
    | some (ms, c₂) =>
      match evalChildren fuel rest t c₂ with
      | none => none
      | some (ms₂, c₃) => some (ms ++ ms₂, c₃)
termination_by fuel cs _ _ => (fuel, sizeOf cs)
decreasing_by all_goals (simp_wf; omega)

end

mutual

/-- A rule tree contains no deferred nodes. -/
def noDeferred : Rule → Bool
  | Rule.leaf _ => true
  | Rule.children cs => noDeferredList cs
  | Rule.deferred _ => false

def noDeferredList : List (Rule × Transform) → Bool
  | [] => true
  | (r, _) :: rest => noDeferred r && noDeferredList rest

end

mutual

/-- Reference evaluator for deferred-free trees: depth-first, pre-order by
child index, transform composed along the path. -/
def evalPure : Rule → Transform → List Mesh
  | Rule.leaf m, t => [Mesh.applyT t m]
  | Rule.children cs, t => evalPureList cs t
  | Rule.deferred _, _ => []

def evalPureList : List (Rule × Transform) → Transform → List Mesh
  | [], _ => []
  | (r, rt) :: rest, t =>
    evalPure r (Transform.compose t rt) ++ evalPureList rest t

end

/-- Modelled from the spec: one output record of the OBJ-style text format,
either a vertex position record or a face record listing global 1-based
vertex indices. -/
inductive ObjRecord where
  | vertex (p : V3)
  | face (ixs : List Nat)
deriving DecidableEq, Repr

/-- Modelled from the spec: the records `render_obj` emits for one mesh at a
given vertex offset: all vertices as position records, then all faces with
each local index `i` re-emitted as `offset + i` plus the 1-based
adjustment. -/
def objRecords (m : Mesh) (offset : Nat) : List ObjRecord :=
  m.vertices.map ObjRecord.vertex ++
    m.faces.map (fun f => ObjRecord.face (f.map (fun i => offset + i + 1)))

/-- An append-only byte sink, abstracted to record granularity: `failAt k`
says whether the write of the k-th record is rejected by the sink (an I/O
failure such as disk full). -/
structure Sink where
  failAt : Nat → Bool

/-- A sink that accepts every write. -/
def okSink : Sink := ⟨fun _ => false⟩

/-- Write records one at a time to the sink: on the first rejected write the
error (the failing record index) surfaces at once; records already accepted
stay written. -/
def writeRecords (sink : Sink) : List ObjRecord → List ObjRecord →
    List ObjRecord × Except Nat Unit
  | written, [] => (written, Except.ok ())
  | written, r :: rest =>
    if sink.failAt written.length then (written, Except.error written.length)
    else writeRecords sink (written ++ [r]) rest

/-- Modelled from the spec: `export::render_obj(mesh, vertex_offset, sink)`
streams the mesh record by record. -/
def render_obj (m : Mesh) (offset : Nat) (sink : Sink)
    (written : List ObjRecord) : List ObjRecord × Except Nat Unit :=
  writeRecords sink written (objRecords m offset)

/-- The loop body of `write_meshes` from src/lib.rs: take the vertex count,
render the mesh at the current offset, propagate any error with `?`, then
advance the offset by the vertex count. -/
def writeMeshesGo (sink : Sink) : List Mesh → Nat → List ObjRecord →
    List ObjRecord × Except Nat Unit
  | [], _, written => (written, Except.ok ())
  | m :: rest, vertex_offset, written =>
    let vertex_count := m.vertices.length
    match render_obj m vertex_offset sink written with
    | (w, Except.ok ()) => writeMeshesGo sink rest (vertex_offset + vertex_count) w
    | (w, Except.error e) => (w, Except.error e)

/-- `write_meshes` from src/lib.rs: vertex offset starts at 0 and the meshes
are streamed in order.  The first component is the sink contents after the
call, the second the returned `Result<()>`. -/
def write_meshes (meshes : List Mesh) (sink : Sink) :
    List ObjRecord × Except Nat Unit :=
  writeMeshesGo sink meshes 0 []

/-- Stated from the spec for comparison with `write_meshes`: per mesh, its
records at the running offset, the offset advancing by the vertex count. -/
def expectedOutput : List Mesh → Nat → List ObjRecord
  | [], _ => []
  | m :: rest, off => objRecords m off ++ expectedOutput rest (off + m.vertices.length)

/-- Total vertex count of a mesh list. -/
def totalVertices (meshes : List Mesh) : Nat :=
  (meshes.map (fun m => m.vertices.length)).sum

/-- A concrete 8-vertex mesh (a unit cube) used as a sample input. -/
def cubeMesh : Mesh :=
  ⟨[⟨0,0,0⟩, ⟨1,0,0⟩, ⟨1,1,0⟩, ⟨0,1,0⟩, ⟨0,0,1⟩, ⟨1,0,1⟩, ⟨1,1,1⟩, ⟨0,1,1⟩],
   [[0,1,2,3], [4,5,6,7], [0,1,5,4], [2,3,7,6], [1,2,6,5], [0,3,7,4]]⟩

/-- A concrete 4-vertex mesh (a single quad) used as a sample input. -/
def quadMesh : Mesh :=
  ⟨[⟨0,0,0⟩, ⟨1,0,0⟩, ⟨1,1,0⟩, ⟨0,1,0⟩], [[0,1,2,3]]⟩

/-- A sink whose second write (record index 1) fails. -/
def badSink : Sink := ⟨fun k => k == 1⟩

/-- A family of one-vertex meshes, distinct for each resolution counter. -/
def sampleG (k : Nat) : Mesh := ⟨[⟨k, 0, 0⟩], []⟩

/-- A ToRule capability resolving to a fresh leaf per invocation. -/
def sampleF (k : Nat) : Rule := Rule.leaf (sampleG k)

/-! Equation lemmas for the well-founded definitions. -/

theorem evaluate_leaf (fuel : Nat) (m : Mesh) (t : Transform) (c : Nat) :
    evaluate fuel (Rule.leaf m) t c = some ([Mesh.applyT t m], c) := by
  cases fuel <;> simp [evaluate]

theorem evaluate_children_eq (fuel : Nat) (cs : List (Rule × Transform))
    (t : Transform) (c : Nat) :
    evaluate fuel (Rule.children cs) t c = evalChildren fuel cs t c := by
  cases fuel <;> simp [evaluate]

theorem evaluate_deferred_succ (fuel : Nat) (f : Nat → Rule) (t : Transform)
    (c : Nat) :
    evaluate (fuel + 1) (Rule.deferred f) t c = evaluate fuel (f c) t (c + 1) := by
  simp [evaluate]

theorem evaluate_deferred_zero (f : Nat → Rule) (t : Transform) (c : Nat) :
    evaluate 0 (Rule.deferred f) t c = none := by
  simp [evaluate]

theorem evalChildren_nil (fuel : Nat) (t : Transform) (c : Nat) :
    evalChildren fuel [] t c = some ([], c) := by
  cases fuel <;> simp [evalChildren]

theorem evalChildren_cons (fuel : Nat) (r : Rule) (rt : Transform)
    (rest : List (Rule × Transform)) (t : Transform) (c : Nat) :
    evalChildren fuel ((r, rt) :: rest) t c =
      match evaluate fuel r (Transform.compose t rt) c with
      | none => none
      | some (ms, c₂) =>
        match evalChildren fuel rest t c₂ with
        | none => none
        | some (ms₂, c₃) => some (ms ++ ms₂, c₃) := by
  cases fuel <;> rw [evalChildren]

/-- The list half of the agreement proof, with the induction hypothesis for
the member rules supplied explicitly. -/
theorem evalChildren_noDeferred_aux (fuel : Nat) (cs : List (Rule × Transform))
    (IH : ∀ r rt, (r, rt) ∈ cs → ∀ (t : Transform) (c : Nat),
      noDeferred r = true → evaluate fuel r t c = some (evalPure r t, c)) :
    ∀ (t : Transform) (c : Nat), noDeferredList cs = true →
      evalChildren fuel cs t c = some (evalPureList cs t, c) := by
  induction cs with
  | nil => intro t c _; rw [evalChildren_nil, evalPureList]
  | cons p rest ih =>
    intro t c h
    obtain ⟨r, rt⟩ := p
    rw [noDeferredList, Bool.and_eq_true] at h
    rw [evalChildren_cons,
      IH r rt (List.mem_cons_self _ _) (Transform.compose t rt) c h.1]
    dsimp only
    rw [ih (fun r2 rt2 hm => IH r2 rt2 (List.mem_cons_of_mem _ hm)) t c h.2]
    dsimp only
    rw [evalPureList]

/-- Size-bounded form of the agreement between `evaluate` and `evalPure`. -/
theorem evaluate_noDeferred_aux : ∀ (n : Nat) (r : Rule), sizeOf r < n →
    ∀ (fuel : Nat) (t : Transform) (c : Nat), noDeferred r = true →
      evaluate fuel r t c = some (evalPure r t, c) := by
  intro n
  induction n with
  | zero => intro r hr; omega
  | succ n ih =>
    intro r hr fuel t c h
    cases r with
    | leaf m => rw [evaluate_leaf, evalPure]
    | children cs =>
      rw [evaluate_children_eq, evalPure]
      refine evalChildren_noDeferred_aux fuel cs ?_ t c (by simpa [noDeferred] using h)
      intro r2 rt2 hm t2 c2 h2
      refine ih r2 ?_ fuel t2 c2 h2
      have hmem : sizeOf (r2, rt2) < sizeOf cs := List.sizeOf_lt_of_mem hm
      have hsz : sizeOf (Rule.children cs) = 1 + sizeOf cs := by simp
      simp only [Prod.mk.sizeOf_spec] at hmem
      omega
    | deferred f => simp [noDeferred] at h

/-- On a deferred-free tree, evaluation succeeds with any fuel, leaves the
resolution counter unchanged, and agrees with the reference evaluator. -/
theorem evaluate_noDeferred (fuel : Nat) (r : Rule) (t : Transform) (c : Nat)
    (h : noDeferred r = true) :
    evaluate fuel r t c = some (evalPure r t, c) :=
  evaluate_noDeferred_aux (sizeOf r + 1) r (by omega) fuel t c h

/-- Deferred-free children lists evaluate to the reference result. -/
theorem evalChildren_noDeferred (fuel : Nat) (cs : List (Rule × Transform))
    (t : Transform) (c : Nat) (h : noDeferredList cs = true) :
    evalChildren fuel cs t c = some (evalPureList cs t, c) :=
  evalChildren_noDeferred_aux fuel cs
    (fun r _ _ t2 c2 h2 => evaluate_noDeferred fuel r t2 c2 h2) t c h

/-- If the sink accepts every record of the batch, all of them are appended
and the call succeeds. -/
theorem writeRecords_ok : ∀ (sink : Sink) (rs written : List ObjRecord),
    (∀ j, j < rs.length → sink.failAt (written.length + j) = false) →
    writeRecords sink written rs = (written ++ rs, Except.ok ()) := by
  intro sink rs
  induction rs with
  | nil => intro written _; simp [writeRecords]
  | cons r rest ih =>
    intro written h
    have h0 : sink.failAt written.length = false := by
      simpa using h 0 (Nat.succ_pos _)
    rw [writeRecords, h0]
    simp only [Bool.false_eq_true, if_false]
    rw [ih (written ++ [r]) ?_]
    · simp
    · intro j hj
      have hlen : (written ++ [r]).length + j = written.length + (j + 1) := by
        simp [List.length_append]
        omega
      rw [hlen]
      exact h (j + 1) (by simpa using hj)

/-- If the sink first rejects the j-th record of the batch, the records
before it stay written and the error surfaces at once. -/
theorem writeRecords_err : ∀ (sink : Sink) (rs written : List ObjRecord) (j : Nat),
    j < rs.length → sink.failAt (written.length + j) = true →
    (∀ k, k < j → sink.failAt (written.length + k) = false) →
    writeRecords sink written rs =
      (written ++ rs.take j, Except.error (written.length + j)) := by
  intro sink rs
  induction rs with
  | nil => intro written j hj; simp at hj
  | cons r rest ih =>
    intro written j hj hfail hok
    cases j with
    | zero =>
      have h0 : sink.failAt written.length = true := by simpa using hfail
      rw [writeRecords, h0]
      simp
    | succ j2 =>
      have h0 : sink.failAt written.length = false := by
        simpa using hok 0 (Nat.succ_pos _)
      rw [writeRecords, h0]
      simp only [Bool.false_eq_true, if_false]
      have hlen : (written ++ [r]).length = written.length + 1 := by
        simp
      rw [ih (written ++ [r]) j2 (by simpa using hj) ?_ ?_]
      · simp only [hlen, List.take_succ_cons, Prod.mk.injEq, List.append_assoc,
          List.singleton_append, Except.error.injEq]
        exact ⟨trivial, by omega⟩
      · rw [hlen]
        have : written.length + 1 + j2 = written.length + (j2 + 1) := by omega
        rw [this]
        exact hfail
      · intro k hk
        rw [hlen]
        have : written.length + 1 + k = written.length + (k + 1) := by omega
        rw [this]
        exact hok (k + 1) (by omega)

theorem expectedOutput_nil (off : Nat) : expectedOutput [] off = [] := rfl

theorem expectedOutput_cons (m : Mesh) (rest : List Mesh) (off : Nat) :
    expectedOutput (m :: rest) off =
      objRecords m off ++ expectedOutput rest (off + m.vertices.length) := rfl

/-- The expected output of a concatenation splits at the total vertex count
of the first part. -/
theorem expectedOutput_append : ∀ (a b : List Mesh) (off : Nat),
    expectedOutput (a ++ b) off =
      expectedOutput a off ++ expectedOutput b (off + totalVertices a) := by
  intro a
  induction a with
  | nil => intro b off; simp [expectedOutput, totalVertices]
  | cons m rest ih =>
    intro b off
    rw [List.cons_append, expectedOutput_cons, expectedOutput_cons, ih]
    rw [List.append_assoc]
    have : off + m.vertices.length + totalVertices rest =
        off + totalVertices (m :: rest) := by
      simp [totalVertices]
      omega
    rw [this]

/-- If the sink accepts every remaining record, the export loop writes the
expected records of every remaining mesh and succeeds. -/
theorem writeMeshesGo_ok : ∀ (sink : Sink) (meshes : List Mesh) (off : Nat)
    (written : List ObjRecord),
    (∀ j, j < (expectedOutput meshes off).length →
      sink.failAt (written.length + j) = false) →
    writeMeshesGo sink meshes off written =
      (written ++ expectedOutput meshes off, Except.ok ()) := by
  intro sink meshes
  induction meshes with
  | nil => intro off written _; simp [writeMeshesGo, expectedOutput]
  | cons m rest ih =>
    intro off written h
    rw [writeMeshesGo]
    show (match render_obj m off sink written with
      | (w, Except.ok ()) => writeMeshesGo sink rest (off + m.vertices.length) w
      | (w, Except.error e) => (w, Except.error e)) = _
    rw [render_obj, writeRecords_ok sink (objRecords m off) written ?_]
    · dsimp only
      rw [ih (off + m.vertices.length) (written ++ objRecords m off) ?_]
      · rw [expectedOutput_cons, List.append_assoc]
      · intro j hj
        have hlen : (written ++ objRecords m off).length + j =
            written.length + ((objRecords m off).length + j) := by
          simp [List.length_append]
          omega
        rw [hlen]
        refine h ((objRecords m off).length + j) ?_
        rw [expectedOutput_cons, List.length_append]
        omega
    · intro j hj
      refine h j ?_
      rw [expectedOutput_cons, List.length_append]
      omega

/-- If the sink first rejects the j-th remaining record, the export loop
stops there: the accepted prefix stays written, the error surfaces, and
nothing further is written. -/
theorem writeMeshesGo_err : ∀ (sink : Sink) (meshes : List Mesh) (off : Nat)
    (written : List ObjRecord) (j : Nat),
    j < (expectedOutput meshes off).length →
    sink.failAt (written.length + j) = true →
    (∀ k, k < j → sink.failAt (written.length + k) = false) →
    writeMeshesGo sink meshes off written =
      (written ++ (expectedOutput meshes off).take j,
        Except.error (written.length + j)) := by
  intro sink meshes
  induction meshes with
  | nil => intro off written j hj; simp [expectedOutput] at hj
  | cons m rest ih =>
    intro off written j hj hfail hok
    rw [writeMeshesGo]
    show (match render_obj m off sink written with
      | (w, Except.ok ()) => writeMeshesGo sink rest (off + m.vertices.length) w
      | (w, Except.error e) => (w, Except.error e)) = _
    by_cases hcase : j < (objRecords m off).length
    · rw [render_obj, writeRecords_err sink (objRecords m off) written j hcase hfail hok]
      dsimp only
      rw [expectedOutput_cons, List.take_append_eq_append_take]
      have h0 : j - (objRecords m off).length = 0 := by omega
      rw [h0, List.take_zero, List.append_nil]
    · push_neg at hcase
      rw [render_obj, writeRecords_ok sink (objRecords m off) written ?_]
      · dsimp only
        rw [ih (off + m.vertices.length) (written ++ objRecords m off)
          (j - (objRecords m off).length) ?_ ?_ ?_]
        · rw [expectedOutput_cons, List.take_append_eq_append_take,
            List.take_of_length_le (by omega : (objRecords m off).length ≤ j),
            List.append_assoc]
          congr 2
          simp [List.length_append]
          omega
        · rw [expectedOutput_cons, List.length_append] at hj
          omega
        · have hlen : (written ++ objRecords m off).length +
              (j - (objRecords m off).length) = written.length + j := by
            simp [List.length_append]
            omega
          rw [hlen]
          exact hfail
        · intro k hk
          have hlen : (written ++ objRecords m off).length + k =
              written.length + ((objRecords m off).length + k) := by
            simp [List.length_append]
            omega
          rw [hlen]
          exact hok ((objRecords m off).length + k) (by omega)
      · intro k hk
        exact hok k (by omega)

/-- Composing with the identity on the outside is the identity operation. -/
theorem Transform.identity_compose (t : Transform) :
    Transform.identity.compose t = t := by
  cases t
  simp [Transform.compose, Transform.identity]

/-- Iterating a y-translation multiplies the offset. -/
theorem pow_translate_y (qy : ℚ) : ∀ i : Nat,
    Transform.pow (Translate.y qy) i = Translate.y ((i : ℚ) * qy) := by
  intro i
  induction i with
  | zero => simp [Transform.pow, Translate.y, Transform.identity]
  | succ n ih =>
    rw [Transform.pow, ih]
    simp [Transform.compose, Translate.y]
    ring

/-- Evaluating a list of identically-leafed children maps the attached
transforms over the leaf mesh, one output mesh per child, counter
untouched. -/
theorem evalChildren_leaf_map (fuel : Nat) (m : Mesh) :
    ∀ (ts : List Transform) (T : Transform) (c : Nat),
    evalChildren fuel (ts.map fun t2 => (Rule.leaf m, t2)) T c =
      some (ts.map fun t2 => Mesh.applyT (T.compose t2) m, c) := by
  intro ts
  induction ts with
  | nil => intro T c; simp [evalChildren_nil]
  | cons t2 rest ih =>
    intro T c
    rw [List.map_cons, evalChildren_cons, evaluate_leaf]
    dsimp only
    rw [ih T c]
    dsimp only
    simp

/-- C4: for a children node with children C0, C1, C2 (no deferred nodes),
evaluation emits all of C0's meshes, then C1's, then C2's, each child
evaluated under the composition of the inherited transform with its
attached transform; in general a children node concatenates its children's
results depth-first in insertion order. -/
theorem C4_children_order (c0 c1 c2 : Rule) (t0 t1 t2 T : Transform)
    (fuel cnt : Nat) (h0 : noDeferred c0 = true) (h1 : noDeferred c1 = true)
    (h2 : noDeferred c2 = true) :
    evaluate fuel (Rule.children [(c0, t0), (c1, t1), (c2, t2)]) T cnt =
      some (evalPure c0 (T.compose t0) ++ evalPure c1 (T.compose t1) ++
        evalPure c2 (T.compose t2), cnt) ∧
    evaluate fuel c0 (T.compose t0) cnt = some (evalPure c0 (T.compose t0), cnt) ∧
    evaluate fuel c1 (T.compose t1) cnt = some (evalPure c1 (T.compose t1), cnt) ∧
    evaluate fuel c2 (T.compose t2) cnt = some (evalPure c2 (T.compose t2), cnt) ∧
    ∀ cs : List (Rule × Transform), noDeferredList cs = true →
      evaluate fuel (Rule.children cs) T cnt = some (evalPureList cs T, cnt) := by
  refine ⟨?_, evaluate_noDeferred fuel c0 _ cnt h0,
    evaluate_noDeferred fuel c1 _ cnt h1, evaluate_noDeferred fuel c2 _ cnt h2,
    fun cs hcs => by
      rw [evaluate_children_eq]
      exact evalChildren_noDeferred fuel cs T cnt hcs⟩
  rw [evaluate_children_eq,
    evalChildren_noDeferred fuel _ T cnt (by simp [noDeferredList, h0, h1, h2])]
  simp [evalPureList]

/-- C5: Replicate::n(count, step) over a one-mesh leaf yields exactly count
meshes, the i-th transformed by step composed with itself i times; for a
y-translation step under the identity the i-th copy's vertices gain a
y-offset of i times the step while topology is unchanged. -/
theorem C5_replicate (count : Nat) (step T : Transform) (m : Mesh)
    (fuel cnt : Nat) :
    evaluate fuel (Replicate.n count step (Rule.leaf m)) T cnt =
      some ((List.range count).map
        (fun i => Mesh.applyT (T.compose (Transform.pow step i)) m), cnt) ∧
    ∀ qy : ℚ,
      evaluate fuel (Replicate.n count (Translate.y qy) (Rule.leaf m))
          Transform.identity cnt =
        some ((List.range count).map
          (fun (i : Nat) => Mesh.mk
            (m.vertices.map fun p => ⟨p.x, p.y + (i : ℚ) * qy, p.z⟩)
            m.faces), cnt) := by
  have hgen : ∀ step2 T2 : Transform,
      evaluate fuel (Replicate.n count step2 (Rule.leaf m)) T2 cnt =
        some ((List.range count).map
          (fun i => Mesh.applyT (T2.compose (Transform.pow step2 i)) m), cnt) := by
    intro step2 T2
    rw [Replicate.n, evaluate_children_eq]
    have hmm : (List.range count).map (fun i => (Rule.leaf m, Transform.pow step2 i)) =
        ((List.range count).map (Transform.pow step2)).map
          (fun t2 => (Rule.leaf m, t2)) := by
      rw [List.map_map]
      rfl
    rw [hmm, evalChildren_leaf_map, List.map_map]
    rfl
  refine ⟨hgen step T, fun qy => ?_⟩
  rw [hgen (Translate.y qy) Transform.identity]
  simp only [Option.some.injEq, Prod.mk.injEq]
  refine ⟨List.map_congr_left fun i _ => ?_, trivial⟩
  rw [pow_translate_y qy i, Transform.identity_compose]
  simp [Mesh.applyT, Transform.apply, Translate.y]

/-- C6: a deferred node inside Replicate::n(4, step) has its ToRule
capability invoked once per replication, at four successive resolution
counters, never memoized: the four emitted meshes come from four separate
resolutions and the counter advances by 4. -/
theorem C6_deferred_fresh (step T : Transform) (f : Nat → Rule)
    (g : Nat → Mesh) (fuel cnt : Nat) (hf : ∀ k, f k = Rule.leaf (g k)) :
    evaluate (fuel + 1) (Replicate.n 4 step (Rule.deferred f)) T cnt =
      some ([Mesh.applyT (T.compose (Transform.pow step 0)) (g cnt),
             Mesh.applyT (T.compose (Transform.pow step 1)) (g (cnt + 1)),
             Mesh.applyT (T.compose (Transform.pow step 2)) (g (cnt + 2)),
             Mesh.applyT (T.compose (Transform.pow step 3)) (g (cnt + 3))],
            cnt + 4) := by
  have hrange : List.range 4 = [0, 1, 2, 3] := rfl
  rw [Replicate.n, hrange, evaluate_children_eq]
  simp only [List.map_cons, List.map_nil]
  rw [evalChildren_cons, evaluate_deferred_succ, hf cnt, evaluate_leaf]
  dsimp only
  rw [evalChildren_cons, evaluate_deferred_succ, hf (cnt + 1), evaluate_leaf]
  dsimp only
  rw [evalChildren_cons, evaluate_deferred_succ, hf (cnt + 1 + 1), evaluate_leaf]
  dsimp only
  rw [evalChildren_cons, evaluate_deferred_succ, hf (cnt + 1 + 1 + 1), evaluate_leaf]
  dsimp only
  rw [evalChildren_nil]
  dsimp only
  have e2 : cnt + 1 + 1 = cnt + 2 := by omega
  rw [e2]
  have e3 : cnt + 2 + 1 = cnt + 3 := by omega
  rw [e3]
  have e4 : cnt + 3 + 1 = cnt + 4 := by omega
  rw [e4]
  simp

/-- C7: a rule tree without deferred nodes evaluates to the same ordered
mesh sequence on every call, whatever fuel and resolution-counter state the
two calls start from. -/
theorem C7_determinism (r : Rule) (t : Transform) (h : noDeferred r = true)
    (fuel1 fuel2 cnt1 cnt2 : Nat) :
    evaluate fuel1 r t cnt1 = some (evalPure r t, cnt1) ∧
    evaluate fuel2 r t cnt2 = some (evalPure r t, cnt2) :=
  ⟨evaluate_noDeferred fuel1 r t cnt1 h, evaluate_noDeferred fuel2 r t cnt2 h⟩

/-- C8: applying a transform to a mesh keeps the face list and vertex count
and maps the vertices through the transform; evaluating a leaf under
Translate::x(3) adds 3 to every x-coordinate, leaving y and z unchanged. -/
theorem C8_transform_mesh (m : Mesh) (T : Transform) (fuel cnt : Nat) :
    (Mesh.applyT T m).faces = m.faces ∧
    (Mesh.applyT T m).vertices = m.vertices.map T.apply ∧
    (Mesh.applyT T m).vertices.length = m.vertices.length ∧
    evaluate fuel (Rule.leaf m) (Translate.x 3) cnt =
      some ([Mesh.mk (m.vertices.map fun p => ⟨p.x + 3, p.y, p.z⟩) m.faces],
        cnt) := by
  refine ⟨rfl, rfl, by simp [Mesh.applyT], ?_⟩
  rw [evaluate_leaf]
  simp [Mesh.applyT, Transform.apply, Translate.x]

/-- With a sink that accepts every write, export writes exactly the expected
records and succeeds. -/
theorem write_meshes_ok (meshes : List Mesh) :
    write_meshes meshes okSink = (expectedOutput meshes 0, Except.ok ()) := by
  rw [write_meshes, writeMeshesGo_ok okSink meshes 0 [] (fun j _ => rfl)]
  simp

/-- C1: export starts at vertex offset 0, re-emits each local face index i
of each mesh as offset + i + 1 (1-based), and advances the offset by the
mesh's vertex count; with vertex counts [8, 8, 4] the third mesh is written
at offset 16 and all its face indices lie in [17, 20]. -/
theorem C1_streaming_offsets (m1 m2 m3 : Mesh)
    (h1 : m1.vertices.length = 8) (h2 : m2.vertices.length = 8)
    (h3 : m3.vertices.length = 4)
    (hf : ∀ fc ∈ m3.faces, ∀ i ∈ fc, i < m3.vertices.length) :
    (∀ meshes : List Mesh,
      write_meshes meshes okSink = (expectedOutput meshes 0, Except.ok ())) ∧
    (write_meshes [m1, m2, m3] okSink).1 =
      objRecords m1 0 ++ objRecords m2 8 ++ objRecords m3 16 ∧
    (∀ ixs, ObjRecord.face ixs ∈ objRecords m3 16 →
      ∀ ix ∈ ixs, 17 ≤ ix ∧ ix ≤ 20) := by
  refine ⟨write_meshes_ok, ?_, ?_⟩
  · rw [write_meshes_ok]
    simp [expectedOutput_cons, expectedOutput_nil, h1, h2]
  · intro ixs hmem ix hix
    rw [objRecords, List.mem_append] at hmem
    rcases hmem with hv | hfc
    · simp at hv
    · rw [List.mem_map] at hfc
      obtain ⟨fc, hfcmem, hfceq⟩ := hfc
      have hixs : ixs = fc.map (fun i => 16 + i + 1) :=
        (ObjRecord.face.injEq _ _).mp hfceq.symm
      rw [hixs, List.mem_map] at hix
      obtain ⟨i, himem, hieq⟩ := hix
      have hibound := hf fc hfcmem i himem
      rw [h3] at hibound
      omega

/-- C2: if the sink first rejects the n-th record and that record belongs to
the export, the whole export aborts there with that error: the accepted
prefix stays written, no later record or mesh is written, and no retry
happens. -/
theorem C2_error_propagation (meshes : List Mesh) (sink : Sink) (n : Nat)
    (hok : ∀ k, k < n → sink.failAt k = false)
    (hfail : sink.failAt n = true)
    (hn : n < (expectedOutput meshes 0).length) :
    write_meshes meshes sink =
      ((expectedOutput meshes 0).take n, Except.error n) := by
  rw [write_meshes,
    writeMeshesGo_err sink meshes 0 [] n hn (by simpa using hfail)
      (by simpa using hok)]
  simp

/-- C3: meshes are exported one at a time in input order, and the records a
tail of the list contributes depend on the earlier meshes only through the
running vertex offset, i.e. their total vertex count. -/
theorem C3_streaming_order (ms1 ms2 : List Mesh) :
    write_meshes (ms1 ++ ms2) okSink =
      ((write_meshes ms1 okSink).1 ++
        expectedOutput ms2 (totalVertices ms1), Except.ok ()) := by
  rw [write_meshes_ok, write_meshes_ok, expectedOutput_append]
  simp

/-- C9: exporting an empty mesh list writes nothing and succeeds for every
sink. -/
theorem C9_empty_export (sink : Sink) :
    write_meshes [] sink = ([], Except.ok ()) := rfl

/-- C10: the export returns Ok exactly when every record of every mesh was
accepted by the sink — equivalently, exactly when the sink contents equal
the full expected rendering of every mesh, once each, in order; the loop
adds no failure mode of its own. -/
theorem C10_ok_iff_all_rendered (meshes : List Mesh) (sink : Sink) :
    ((write_meshes meshes sink).2 = Except.ok () ↔
      (write_meshes meshes sink).1 = expectedOutput meshes 0) ∧
    ((write_meshes meshes sink).2 = Except.ok () ↔
      ∀ j, j < (expectedOutput meshes 0).length → sink.failAt j = false) := by
  by_cases hall : ∀ j, j < (expectedOutput meshes 0).length → sink.failAt j = false
  · have hrun : write_meshes meshes sink =
        (expectedOutput meshes 0, Except.ok ()) := by
      rw [write_meshes, writeMeshesGo_ok sink meshes 0 [] (by simpa using hall)]
      simp
    rw [hrun]
    constructor
    · simp
    · exact iff_of_true rfl hall
  · push_neg at hall
    obtain ⟨j1, hj1, hj1f⟩ := hall
    have hex : ∃ j, j < (expectedOutput meshes 0).length ∧ sink.failAt j = true :=
      ⟨j1, hj1, by simpa using hj1f⟩
    classical
    set j0 := Nat.find hex with hj0def
    obtain ⟨hj0lt, hj0fail⟩ := Nat.find_spec hex
    have hj0min : ∀ k, k < j0 → sink.failAt k = false := by
      intro k hk
      have := Nat.find_min hex hk
      rw [not_and_or] at this
      rcases this with hkn | hkf
      · omega
      · simpa using hkf
    have hrun : write_meshes meshes sink =
        ((expectedOutput meshes 0).take j0, Except.error j0) := by
      rw [write_meshes,
        writeMeshesGo_err sink meshes 0 [] j0 hj0lt (by simpa using hj0fail)
          (by simpa using hj0min)]
      simp
    rw [hrun]
    constructor
    · refine iff_of_false (by simp) ?_
      intro hfull
      have hlen := congrArg List.length hfull
      rw [List.length_take] at hlen
      simp at hlen
      omega
    · refine iff_of_false (by simp) ?_
      intro hallok
      have := hallok j0 hj0lt
      rw [hj0fail] at this
      exact absurd this (by simp)

/-- C1 witness: two cubes (8 vertices each) followed by a quad (4 vertices,
valid face indices) hit the 1-based global range [17, 20] for the third
mesh. -/
theorem C1_streaming_offsets_witness :
    cubeMesh.vertices.length = 8 ∧ cubeMesh.vertices.length = 8 ∧
    quadMesh.vertices.length = 4 ∧
    (∀ fc ∈ quadMesh.faces, ∀ i ∈ fc, i < quadMesh.vertices.length) ∧
    ((∀ meshes : List Mesh,
        write_meshes meshes okSink = (expectedOutput meshes 0, Except.ok ())) ∧
      (write_meshes [cubeMesh, cubeMesh, quadMesh] okSink).1 =
        objRecords cubeMesh 0 ++ objRecords cubeMesh 8 ++ objRecords quadMesh 16 ∧
      (∀ ixs, ObjRecord.face ixs ∈ objRecords quadMesh 16 →
        ∀ ix ∈ ixs, 17 ≤ ix ∧ ix ≤ 20)) :=
  ⟨rfl, rfl, rfl, by decide,
    C1_streaming_offsets cubeMesh cubeMesh quadMesh rfl rfl rfl (by decide)⟩

/-- C2 witness: a sink that rejects the second record aborts the export of a
quad after one written record, with error index 1. -/
theorem C2_error_propagation_witness :
    (∀ k, k < 1 → badSink.failAt k = false) ∧ badSink.failAt 1 = true ∧
    1 < (expectedOutput [quadMesh] 0).length ∧
    write_meshes [quadMesh] badSink =
      ((expectedOutput [quadMesh] 0).take 1, Except.error 1) :=
  ⟨by decide, by decide, by decide,
    C2_error_propagation [quadMesh] badSink 1 (by decide) (by decide) (by decide)⟩

/-- C4 witness: three concrete deferred-free children evaluate in insertion
order under the composed transforms. -/
theorem C4_children_order_witness :
    noDeferred (Rule.leaf cubeMesh) = true ∧
    noDeferred (Rule.leaf quadMesh) = true ∧
    noDeferred (Rule.children []) = true ∧
    (evaluate 3 (Rule.children [(Rule.leaf cubeMesh, Translate.x 1),
        (Rule.leaf quadMesh, Translate.y 1), (Rule.children [], Translate.z 1)])
        Transform.identity 0 =
      some (evalPure (Rule.leaf cubeMesh) (Transform.identity.compose (Translate.x 1)) ++
        evalPure (Rule.leaf quadMesh) (Transform.identity.compose (Translate.y 1)) ++
        evalPure (Rule.children []) (Transform.identity.compose (Translate.z 1)), 0) ∧
      evaluate 3 (Rule.leaf cubeMesh) (Transform.identity.compose (Translate.x 1)) 0 =
        some (evalPure (Rule.leaf cubeMesh) (Transform.identity.compose (Translate.x 1)), 0) ∧
      evaluate 3 (Rule.leaf quadMesh) (Transform.identity.compose (Translate.y 1)) 0 =
        some (evalPure (Rule.leaf quadMesh) (Transform.identity.compose (Translate.y 1)), 0) ∧
      evaluate 3 (Rule.children []) (Transform.identity.compose (Translate.z 1)) 0 =
        some (evalPure (Rule.children []) (Transform.identity.compose (Translate.z 1)), 0) ∧
      ∀ cs : List (Rule × Transform), noDeferredList cs = true →
        evaluate 3 (Rule.children cs) Transform.identity 0 =
          some (evalPureList cs Transform.identity, 0)) :=
  ⟨by simp [noDeferred], by simp [noDeferred], by simp [noDeferred, noDeferredList],
    C4_children_order (Rule.leaf cubeMesh) (Rule.leaf quadMesh) (Rule.children [])
      (Translate.x 1) (Translate.y 1) (Translate.z 1) Transform.identity 3 0
      (by simp [noDeferred]) (by simp [noDeferred])
      (by simp [noDeferred, noDeferredList])⟩

/-- C6 witness: a capability resolving to a fresh one-vertex leaf per call,
replicated 4 times, is resolved at counters 0, 1, 2, 3 and the counter ends
at 4. -/
theorem C6_deferred_fresh_witness :
    (∀ k, sampleF k = Rule.leaf (sampleG k)) ∧
    evaluate (0 + 1) (Replicate.n 4 (Translate.y 1) (Rule.deferred sampleF))
        Transform.identity 0 =
      some ([Mesh.applyT (Transform.identity.compose (Transform.pow (Translate.y 1) 0)) (sampleG 0),
             Mesh.applyT (Transform.identity.compose (Transform.pow (Translate.y 1) 1)) (sampleG (0 + 1)),
             Mesh.applyT (Transform.identity.compose (Transform.pow (Translate.y 1) 2)) (sampleG (0 + 2)),
             Mesh.applyT (Transform.identity.compose (Transform.pow (Translate.y 1) 3)) (sampleG (0 + 3))],
            0 + 4) :=
  ⟨fun _ => rfl,
    C6_deferred_fresh (Translate.y 1) Transform.identity sampleF sampleG 0 0
      (fun _ => rfl)⟩

/-- C7 witness: a concrete deferred-free rule evaluated with two different
fuels and counters yields the same mesh list. -/
theorem C7_determinism_witness :
    noDeferred (Rule.tf (Rule.leaf quadMesh) (Translate.x 1)) = true ∧
    (evaluate 5 (Rule.tf (Rule.leaf quadMesh) (Translate.x 1)) (Translate.y 2) 0 =
      some (evalPure (Rule.tf (Rule.leaf quadMesh) (Translate.x 1)) (Translate.y 2), 0) ∧
     evaluate 7 (Rule.tf (Rule.leaf quadMesh) (Translate.x 1)) (Translate.y 2) 3 =
      some (evalPure (Rule.tf (Rule.leaf quadMesh) (Translate.x 1)) (Translate.y 2), 3)) :=
  ⟨by simp [Rule.tf, noDeferred, noDeferredList],
    C7_determinism (Rule.tf (Rule.leaf quadMesh) (Translate.x 1)) (Translate.y 2)
      (by simp [Rule.tf, noDeferred, noDeferredList]) 5 7 0 3⟩
